import Mathlib

/-!
Shallow embedding of the blog build script (`build.py`) and verification of
its specification.  Strings are modelled as `List Char` (Python `str`),
regular-expression scans as executable recursive scanners with the exact
matching semantics of the patterns used by the script, and the filesystem
steps as pure functions over explicit directory listings.
-/

namespace Build

/-- Python whitespace for `str.strip()` and the regex class `\s`
(ASCII range): space, tab, newline, carriage return, vertical tab, form feed. -/
def pyIsSpace (c : Char) : Bool :=
  c = ' ' || c = '\t' || c = '\n' || c = '\r' || c = '\x0b' || c = '\x0c'

/-- Python `s.lstrip()` restricted to a Bool predicate. -/
def lstripBy (p : Char → Bool) (l : List Char) : List Char :=
  l.dropWhile p

/-- Python `s.rstrip()` restricted to a Bool predicate. -/
def rstripBy (p : Char → Bool) (l : List Char) : List Char :=
  (l.reverse.dropWhile p).reverse

/-- Python `s.strip()` (default whitespace). -/
def pyStrip (l : List Char) : List Char :=
  rstripBy pyIsSpace (lstripBy pyIsSpace l)

/-- Python `s.startswith(pre)`. -/
def pyStartswith (pre l : List Char) : Bool :=
  pre.isPrefixOf l

/-- The predicate tested inside the title-search loop of
`extract_title_from_markdown`: the (stripped) line is non-empty and does not
start with `![[` nor with `![`. -/
def goodTitleLine (line : List Char) : Bool :=
  !line.isEmpty && !pyStartswith "![[".data line && !pyStartswith "![".data line

/-- The `for line in lines:` loop of `extract_title_from_markdown`
(`build.py` lines 37-42): return the first stripped line that is non-blank
and is not an image embed, truncated to 50 characters. -/
def findTitleLoop : List (List Char) → Option (List Char)
  | [] => none
  | l :: rest =>
    let line := pyStrip l
    if goodTitleLine line then some (line.take 50) else findTitleLoop rest

/-- `extract_title_from_markdown` (`build.py` lines 24-42):
strip the content, split into lines; if the first line (stripped) starts with
`#`, return it with the leading `#` run and surrounding whitespace stripped;
otherwise return the first non-blank non-image line truncated to 50 chars. -/
def extract_title_from_markdown (content : List Char) : Option (List Char) :=
  let lines := (pyStrip content).splitOn '\n'
  match lines with
  | [] => none
  | l0 :: _ =>
    let first_line := pyStrip l0
    if pyStartswith ['#'] first_line then
      some (pyStrip (first_line.dropWhile (· = '#')))
    else
      findTitleLoop lines

/-- `parse_date_from_filename` (`build.py` lines 44-54):
`re.match` of `(\d{2})(\d{2})(\d{2})` anchored at the start, returning
`20YY-MM-DD` on success and `None` otherwise. -/
def parse_date_from_filename (filename : List Char) : Option (List Char) :=
  match filename with
  | y1 :: y2 :: m1 :: m2 :: d1 :: d2 :: _ =>
    if y1.isDigit && y2.isDigit && m1.isDigit && m2.isDigit && d1.isDigit && d2.isDigit then
      some ('2' :: '0' :: y1 :: y2 :: '-' :: m1 :: m2 :: '-' :: d1 :: d2 :: [])
    else none
  | _ => none

/-- Attempt to match the regex `!\[\[([^\]]+)\]\]` at the head of the input.
On success returns the captured group and the text after the match.
The character class excludes `]`, so the greedy `+` deterministically takes
the maximal `]`-free run, which must be non-empty and followed by `]]`. -/
def matchObsidianAt (l : List Char) : Option (List Char × List Char) :=
  if pyStartswith "![[".data l then
    if (l.drop 3).takeWhile (fun c => !(c = ']')) ≠ [] ∧
        ((l.drop 3).dropWhile (fun c => !(c = ']'))).take 2 = "]]".data then
      some ((l.drop 3).takeWhile (fun c => !(c = ']')),
            ((l.drop 3).dropWhile (fun c => !(c = ']'))).drop 2)
    else none
  else none

/-- The tail `([^\)]+)\)` of the standard-link regex: a non-empty maximal
run of non-`)` characters followed by `)`. -/
def matchParenBody (l : List Char) : Option (List Char × List Char) :=
  if l.takeWhile (fun c => !(c = ')')) ≠ [] ∧
      (l.dropWhile (fun c => !(c = ')'))).take 1 = ")".data then
    some (l.takeWhile (fun c => !(c = ')')), (l.dropWhile (fun c => !(c = ')'))).drop 1)
  else none

/-- The tail `(?:assets/)?([^\)]+)\)` of the standard-link regex: first try
with the optional `assets/` prefix consumed; if the remainder fails to match,
backtrack and match without consuming it. -/
def matchLinkTail (l : List Char) : Option (List Char × List Char) :=
  if pyStartswith "assets/".data l then
    match matchParenBody (l.drop 7) with
    | some res => some res
    | none => matchParenBody l
  else matchParenBody l

/-- The lazy `.*?\]\((?:assets/)?([^\)]+)\)` part of the standard-link regex,
scanned after an initial `![`.  The lazy `.*?` expands one character at a
time (never across a newline, since `.` does not match `\n`); at each stop it
requires `](` and then tries the tail, backtracking to a wider `.*?` when the
tail fails.  The fuel argument bounds the recursion; it is always run with
fuel at least the length of the input. -/
def searchCloseF : Nat → List Char → Option (List Char × List Char)
  | 0, _ => none
  | _ + 1, [] => none
  | fuel + 1, c :: rest =>
    if c = ']' ∧ rest.take 1 = "(".data then
      match matchLinkTail (rest.drop 1) with
      | some res => some res
      | none => searchCloseF fuel rest
    else if c = '\n' then none
    else searchCloseF fuel rest

/-- Attempt to match the regex `!\[.*?\]\((?:assets/)?([^\)]+)\)` at the head
of the input, returning the captured group and the text after the match. -/
def matchStandardAt (l : List Char) : Option (List Char × List Char) :=
  if pyStartswith "![".data l then searchCloseF (l.drop 2).length (l.drop 2) else none

/-- Generic fueled scan shared by `re.findall` and `re.sub`: walk the text
left to right; where `m` matches, emit `hit` on the capture and resume after
the match (non-overlapping, leftmost); elsewhere emit `miss` on the current
character and advance one position.  Run with fuel at least the length of
the input, and with `m` consuming at least one character on success. -/
def scanF {β : Type} (m : List Char → Option (List Char × List Char))
    (hit : List Char → List β) (miss : Char → List β) : Nat → List Char → List β
  | 0, _ => []
  | _ + 1, [] => []
  | fuel + 1, c :: rest =>
    match m (c :: rest) with
    | some (cap, r) => hit cap ++ scanF m hit miss fuel r
    | none => miss c ++ scanF m hit miss fuel rest

/-- `re.findall` of the embed-bracket pattern `!\[\[([^\]]+)\]\]`. -/
def findObsidian (l : List Char) : List (List Char) :=
  scanF matchObsidianAt (fun cap => [cap]) (fun _ => []) l.length l

/-- `re.findall` of the standard-link pattern
`!\[.*?\]\((?:assets/)?([^\)]+)\)`. -/
def findStandard (l : List Char) : List (List Char) :=
  scanF matchStandardAt (fun cap => [cap]) (fun _ => []) l.length l

/-- `extract_images_from_markdown` (`build.py` lines 56-66): all
embed-bracket matches first, then all standard-link matches. -/
def extract_images_from_markdown (content : List Char) : List (List Char) :=
  findObsidian content ++ findStandard content

/-- `convert_obsidian_images` (`build.py` lines 68-75):
`re.sub` replacing every `!\[\[([^\]]+)\]\]` match with
`![](assets/{post_id}/\1)`. -/
def convert_obsidian_images (post_id : List Char) (markdown : List Char) : List Char :=
  scanF matchObsidianAt
    (fun cap => "![](assets/".data ++ post_id ++ '/' :: cap ++ [')'])
    (fun c => [c]) markdown.length markdown

/-- `Path.stem` for the filenames produced by `BLOGS_DIR.glob('*.md')`:
the filename with its last `.`-suffix removed (the whole name if it has no
dot). -/
def pathStem (n : List Char) : List Char :=
  if '.' ∈ n then ((n.reverse.dropWhile (fun c => !(c = '.'))).drop 1).reverse else n

/-- Python truthiness of an optional string (`if date and title:`):
`None` and the empty string are falsy. -/
def pyTruthy : Option (List Char) → Bool
  | none => false
  | some l => !l.isEmpty

/-- One entry of `posts_metadata` (`build.py` lines 116-121). -/
structure Post where
  id : List Char
  date : List Char
  title : List Char
  images : List (List Char)
deriving DecidableEq, Repr

/-- The per-file metadata step of `process_markdown_files`
(`build.py` lines 93-121): extract title, date and images, and add a record
exactly when `if date and title:` holds (Python truthiness). -/
def mkRecord (name content : List Char) : Option Post :=
  if pyTruthy (parse_date_from_filename (pathStem name))
      && pyTruthy (extract_title_from_markdown content) then
    some ⟨pathStem name, (parse_date_from_filename (pathStem name)).getD [],
          (extract_title_from_markdown content).getD [],
          extract_images_from_markdown content⟩
  else none

/-- Lexicographic `≤` on Python strings (code-point order). -/
def lexLe : List Char → List Char → Bool
  | [], _ => true
  | _ :: _, [] => false
  | a :: as, b :: bs => if a = b then lexLe as bs else decide (a < b)

/-- One file of the input corpus: `(filename, raw content)`. -/
abbrev MdFile := List Char × List Char

/-- Stable descending insertion: place `x` before the first element whose
name is `≤` the name of `x`. -/
def insertDesc (x : MdFile) : List MdFile → List MdFile
  | [] => [x]
  | y :: ys => if lexLe y.1 x.1 then x :: y :: ys else y :: insertDesc x ys

/-- `sorted(BLOGS_DIR.glob('*.md'), reverse=True)` modelled on an explicit
directory listing: stable sort by filename, descending (`build.py` line 85). -/
def sortDescByName : List MdFile → List MdFile
  | [] => []
  | x :: xs => insertDesc x (sortDescByName xs)

/-- `process_markdown_files` (`build.py` lines 77-123) modelled as a pure
function of the corpus listing.  Returns the rewritten files written to
`docs/blogs` (one per input file, same filename, converted content) and the
accumulated `posts_metadata` (from the same descending iteration order,
keeping only files passing `if date and title:`). -/
def process_markdown_files (files : List MdFile) :
    List MdFile × List Post :=
  let sorted := sortDescByName files
  (sorted.map (fun f => (f.1, convert_obsidian_images (pathStem f.1) f.2)),
   sorted.filterMap (fun f => mkRecord f.1 f.2))

/-- One file of the source asset tree, in `os.walk` visiting order:
`(basename, content)`. -/
abbrev AssetFile := List Char × List Char

/-- One file of the destination asset tree:
`(post id, image filename, content)`. -/
abbrev DestFile := List Char × List Char × List Char

/-- The copy loop of `organize_assets` for one post (`build.py` lines
152-165): each referenced image is looked up by basename in the source tree
(first match in walk order wins) and copied into the post's folder; a
missing image only produces a warning and is skipped. -/
def copyImagesForPost (tree : List AssetFile) (p : Post) : List DestFile :=
  p.images.filterMap
    (fun img => (tree.find? (fun f => f.1 = img)).map (fun f => (p.id, img, f.2)))

/-- The repopulation phase of `organize_assets` (`build.py` lines 140-165),
starting from the freshly recreated empty destination root: posts with no
images are skipped, the rest get their found images copied in. -/
def buildAssetTree (tree : List AssetFile) (posts : List Post) : List DestFile :=
  (posts.filter (fun p => !p.images.isEmpty)).flatMap (copyImagesForPost tree)

/-- `organize_assets` (`build.py` lines 125-165) modelled as a function from
the (optional) source asset tree, the metadata records and the pre-existing
destination asset tree to the new destination asset tree.  If the source
tree does not exist the function is a no-op; otherwise the destination root
is deleted and recreated (`shutil.rmtree` + `mkdir`, lines 134-137), so the
result is built from scratch regardless of `dest`. -/
def organize_assets (src : Option (List AssetFile)) (posts : List Post)
    (dest : List DestFile) : List DestFile :=
  match src with
  | none => dest
  | some tree => buildAssetTree tree posts

/-- Attempt to match the regex `postsMetadata:\s*\[[\s\S]*?\]` at the head
of the input (`build.py` line 188).  The greedy `\s*` takes the maximal
whitespace run (no backtracking can help since `[` is not whitespace), and
the lazy `[\s\S]*?` stops at the first `]`.  Returns the matched text and
the text after the match. -/
def matchMarkerAt (l : List Char) : Option (List Char × List Char) :=
  if pyStartswith "postsMetadata:".data l then
    if ((l.drop 14).dropWhile pyIsSpace).take 1 = "[".data then
      if (((((l.drop 14).dropWhile pyIsSpace).drop 1)).dropWhile (fun c => !(c = ']'))).take 1
          = "]".data then
        some ("postsMetadata:".data ++ (l.drop 14).takeWhile pyIsSpace
                ++ '[' :: ((((l.drop 14).dropWhile pyIsSpace).drop 1)).takeWhile (fun c => !(c = ']'))
                ++ [']'],
              (((((l.drop 14).dropWhile pyIsSpace).drop 1)).dropWhile (fun c => !(c = ']'))).drop 1)
      else none
    else none
  else none

/-- The splice step of `update_blog_js` (`build.py` lines 188-189):
`re.sub(pattern, metadata_js, content, count=1)` — replace the leftmost
match of the marker pattern with the generated metadata text, leaving
everything else unchanged. -/
def update_blog_js (metadata_js : List Char) : List Char → List Char
  | [] => []
  | c :: rest =>
    match matchMarkerAt (c :: rest) with
    | some (_, r) => metadata_js ++ r
    | none => c :: update_blog_js metadata_js rest

/-- Decompose the target text at the leftmost marker match:
`some (pre, matched, post)` with no match starting inside `pre`. -/
def findMarkerSplit : List Char → Option (List Char × List Char × List Char)
  | [] => none
  | c :: rest =>
    match matchMarkerAt (c :: rest) with
    | some (m, r) => some ([], m, r)
    | none => (findMarkerSplit rest).map (fun t => (c :: t.1, t.2.1, t.2.2))

end Build

namespace Build

/-! ### Generic lemmas about the scanners -/

theorem length_dropWhile_le (p : Char → Bool) (l : List Char) :
    (l.dropWhile p).length ≤ l.length := by
  induction l with
  | nil => simp
  | cons c r ih => by_cases h : p c <;> simp [List.dropWhile, h] <;> omega

theorem matchObsidianAt_length {l cap r : List Char}
    (h : matchObsidianAt l = some (cap, r)) : r.length < l.length := by
  unfold matchObsidianAt at h
  by_cases h1 : pyStartswith "![[".data l = true
  · rw [if_pos h1] at h
    split at h
    · rename_i hc
      have hpre : "![[".data <+: l := List.isPrefixOf_iff_prefix.mp h1
      have h3 : 3 ≤ l.length := hpre.length_le
      have hd : ((l.drop 3).dropWhile (fun c => !(c = ']'))).length ≤ l.length - 3 := by
        have := length_dropWhile_le (fun c => !(c = ']')) (l.drop 3)
        simpa using this
      have htk : 2 ≤ ((l.drop 3).dropWhile (fun c => !(c = ']'))).length := by
        have h5 := congrArg List.length hc.2
        rw [List.length_take] at h5
        have h6 : ("]]".data).length = 2 := rfl
        rw [h6] at h5
        omega
      have hr : r = ((l.drop 3).dropWhile (fun c => !(c = ']'))).drop 2 := by
        injection h with h4
        exact (congrArg Prod.snd h4).symm
      subst hr
      simp only [List.length_drop]
      omega
    · exact absurd h (by simp)
  · rw [if_neg h1] at h
    exact absurd h (by simp)

theorem matchParenBody_length {l cap r : List Char}
    (h : matchParenBody l = some (cap, r)) : r.length < l.length := by
  unfold matchParenBody at h
  split at h
  · rename_i hc
    have hd : (l.dropWhile (fun c => !(c = ')'))).length ≤ l.length :=
      length_dropWhile_le _ l
    have htk : 1 ≤ (l.dropWhile (fun c => !(c = ')'))).length := by
      have h5 := congrArg List.length hc.2
      rw [List.length_take] at h5
      have h6 : (")".data).length = 1 := rfl
      rw [h6] at h5
      omega
    have hr : r = (l.dropWhile (fun c => !(c = ')'))).drop 1 := by
      injection h with h4
      exact (congrArg Prod.snd h4).symm
    subst hr
    simp only [List.length_drop]
    omega
  · exact absurd h (by simp)

theorem matchLinkTail_length {l cap r : List Char}
    (h : matchLinkTail l = some (cap, r)) : r.length < l.length := by
  unfold matchLinkTail at h
  by_cases h1 : pyStartswith "assets/".data l = true
  · rw [if_pos h1] at h
    cases h2 : matchParenBody (l.drop 7) with
    | some res =>
      rw [h2] at h
      injection h with h3
      subst h3
      have := matchParenBody_length h2
      have h7 : 7 ≤ l.length :=
        (List.isPrefixOf_iff_prefix.mp h1).length_le
      simp [List.length_drop] at this
      omega
    | none =>
      rw [h2] at h
      exact matchParenBody_length h
  · rw [if_neg h1] at h
    exact matchParenBody_length h

theorem searchCloseF_length : ∀ (fuel : Nat) {l cap r : List Char},
    searchCloseF fuel l = some (cap, r) → r.length < l.length := by
  intro fuel
  induction fuel with
  | zero => intro l cap r h; exact absurd h (by simp [searchCloseF])
  | succ f ih =>
    intro l cap r h
    cases l with
    | nil => exact absurd h (by simp [searchCloseF])
    | cons c rest =>
      rw [searchCloseF] at h
      by_cases h1 : c = ']' ∧ rest.take 1 = "(".data
      · rw [if_pos h1] at h
        cases h2 : matchLinkTail (rest.drop 1) with
        | some res =>
          rw [h2] at h
          injection h with h3
          subst h3
          have := matchLinkTail_length h2
          simp [List.length_drop] at this
          simp
          omega
        | none =>
          rw [h2] at h
          have := ih h
          simp
          omega
      · rw [if_neg h1] at h
        by_cases h2 : c = '\n'
        · rw [if_pos h2] at h
          exact absurd h (by simp)
        · rw [if_neg h2] at h
          have := ih h
          simp
          omega

theorem matchStandardAt_length {l cap r : List Char}
    (h : matchStandardAt l = some (cap, r)) : r.length < l.length := by
  unfold matchStandardAt at h
  by_cases h1 : pyStartswith "![".data l = true
  · rw [if_pos h1] at h
    have := searchCloseF_length _ h
    have h2 : 2 ≤ l.length :=
      (List.isPrefixOf_iff_prefix.mp h1).length_le
    simp [List.length_drop] at this
    omega
  · rw [if_neg h1] at h
    exact absurd h (by simp)

/-- Fuel-irrelevance of `scanF`: any fuel at least the length of the input
gives the same result, provided a successful match always consumes at least
one character. -/
theorem scanF_stable {β : Type} {m : List Char → Option (List Char × List Char)}
    (hm : ∀ {l cap r}, m l = some (cap, r) → r.length < l.length)
    (hit : List Char → List β) (miss : Char → List β) :
    ∀ (f1 f2 : Nat) (l : List Char), l.length ≤ f1 → l.length ≤ f2 →
      scanF m hit miss f1 l = scanF m hit miss f2 l := by
  intro f1
  induction f1 with
  | zero =>
    intro f2 l h1 _
    have : l = [] := List.length_eq_zero.mp (Nat.le_zero.mp h1)
    subst this
    cases f2 <;> simp [scanF]
  | succ f ih =>
    intro f2 l h1 h2
    cases f2 with
    | zero =>
      have : l = [] := List.length_eq_zero.mp (Nat.le_zero.mp h2)
      subst this
      simp [scanF]
    | succ g =>
      cases l with
      | nil => simp [scanF]
      | cons c rest =>
        rw [scanF, scanF]
        cases hml : m (c :: rest) with
        | none =>
          have hlen : rest.length ≤ f := by simp at h1; omega
          have hlen2 : rest.length ≤ g := by simp at h2; omega
          show miss c ++ scanF m hit miss f rest = miss c ++ scanF m hit miss g rest
          rw [ih g rest hlen hlen2]
        | some pr =>
          obtain ⟨cap, r⟩ := pr
          have hr := hm hml
          have hlen : r.length ≤ f := by simp at h1 hr; omega
          have hlen2 : r.length ≤ g := by simp at h2 hr; omega
          show hit cap ++ scanF m hit miss f r = hit cap ++ scanF m hit miss g r
          rw [ih g r hlen hlen2]

/-- Top-level step of a fueled scan when the matcher fires at the head. -/
theorem scanF_top_match {β : Type} {m : List Char → Option (List Char × List Char)}
    (hm : ∀ {l cap r}, m l = some (cap, r) → r.length < l.length)
    (hit : List Char → List β) (miss : Char → List β) {l cap r : List Char}
    (h : m l = some (cap, r)) :
    scanF m hit miss l.length l = hit cap ++ scanF m hit miss r.length r := by
  cases l with
  | nil =>
    have := hm h
    simp at this
  | cons c rest =>
    have hstep : scanF m hit miss (c :: rest).length (c :: rest)
        = match m (c :: rest) with
          | some (cap, r) => hit cap ++ scanF m hit miss rest.length r
          | none => miss c ++ scanF m hit miss rest.length rest := rfl
    rw [hstep, h]
    show hit cap ++ scanF m hit miss rest.length r = hit cap ++ scanF m hit miss r.length r
    have hr := hm h
    simp at hr
    rw [scanF_stable hm hit miss rest.length r.length r (by omega) le_rfl]

/-- Top-level step of a fueled scan when the matcher does not fire. -/
theorem scanF_top_miss {β : Type} {m : List Char → Option (List Char × List Char)}
    (hm : ∀ {l cap r}, m l = some (cap, r) → r.length < l.length)
    (hit : List Char → List β) (miss : Char → List β) {c : Char} {rest : List Char}
    (h : m (c :: rest) = none) :
    scanF m hit miss (c :: rest).length (c :: rest)
      = miss c ++ scanF m hit miss rest.length rest := by
  have hstep : scanF m hit miss (c :: rest).length (c :: rest)
      = match m (c :: rest) with
        | some (cap, r) => hit cap ++ scanF m hit miss rest.length r
        | none => miss c ++ scanF m hit miss rest.length rest := rfl
  rw [hstep, h]

theorem takeWhile_append_stop {p : Char → Bool} {xs : List Char}
    (h : ∀ c ∈ xs, p c = true) {y : Char} (hy : p y = false) (tl : List Char) :
    (xs ++ y :: tl).takeWhile p = xs := by
  induction xs with
  | nil => simp [List.takeWhile, hy]
  | cons u us ihu =>
    have hu : p u = true := h u (List.mem_cons_self u us)
    have hus : ∀ c ∈ us, p c = true := fun c hc => h c (List.mem_cons_of_mem u hc)
    rw [List.cons_append, List.takeWhile_cons, if_pos hu, ihu hus]

theorem dropWhile_append_stop {p : Char → Bool} {xs : List Char}
    (h : ∀ c ∈ xs, p c = true) {y : Char} (hy : p y = false) (tl : List Char) :
    (xs ++ y :: tl).dropWhile p = y :: tl := by
  induction xs with
  | nil => simp [List.dropWhile, hy]
  | cons u us ihu =>
    have hu : p u = true := h u (List.mem_cons_self u us)
    have hus : ∀ c ∈ us, p c = true := fun c hc => h c (List.mem_cons_of_mem u hc)
    rw [List.cons_append, List.dropWhile_cons, if_pos hu, ihu hus]

/-- The embed-bracket matcher on an exact occurrence `![[NAME]]` followed by
arbitrary text: it captures NAME and leaves the following text. -/
theorem matchObsidianAt_exact {name : List Char} (hne : name ≠ [])
    (hok : ∀ c ∈ name, c ≠ ']') (rest : List Char) :
    matchObsidianAt ("![[".data ++ (name ++ (']' :: ']' :: rest))) = some (name, rest) := by
  have hp : ∀ c ∈ name, (fun c => !(c = ']')) c = true := by
    intro c hc
    simp [hok c hc]
  have hy : (fun c => !(c = ']')) ']' = false := by simp
  have hdrop3 : ("![[".data ++ (name ++ (']' :: ']' :: rest))).drop 3
      = name ++ (']' :: ']' :: rest) := List.drop_left "![[".data _
  unfold matchObsidianAt
  rw [if_pos (by
    exact List.isPrefixOf_iff_prefix.mpr ⟨name ++ (']' :: ']' :: rest), rfl⟩)]
  rw [hdrop3, takeWhile_append_stop hp hy, dropWhile_append_stop hp hy]
  rw [if_pos ⟨hne, rfl⟩]
  rfl

/-- If the pattern matches nowhere in the text (its `findall` is empty), a
substitution scan that keeps unmatched characters returns the text
unchanged. -/
theorem scanF_id_of_find_nil {m : List Char → Option (List Char × List Char)}
    (hit : List Char → List Char) :
    ∀ (f : Nat) (l : List Char), l.length ≤ f →
      scanF m (fun cap => [cap]) (fun _ => ([] : List (List Char))) f l = [] →
      scanF m hit (fun c => [c]) f l = l := by
  intro f
  induction f with
  | zero =>
    intro l h _
    have : l = [] := List.length_eq_zero.mp (Nat.le_zero.mp h)
    subst this
    rfl
  | succ f ih =>
    intro l h hnil
    cases l with
    | nil => rfl
    | cons c rest =>
      cases hml : m (c :: rest) with
      | some pr =>
        obtain ⟨cap, r⟩ := pr
        exfalso
        have hstep : scanF m (fun cap => [cap]) (fun _ => ([] : List (List Char)))
            (f + 1) (c :: rest)
            = match m (c :: rest) with
              | some (cap, r) =>
                [cap] ++ scanF m (fun cap => [cap]) (fun _ => []) f r
              | none => [] ++ scanF m (fun cap => [cap]) (fun _ => []) f rest := rfl
        rw [hstep, hml] at hnil
        exact absurd hnil (by simp)
      | none =>
        have hstep : scanF m (fun cap => [cap]) (fun _ => ([] : List (List Char)))
            (f + 1) (c :: rest)
            = match m (c :: rest) with
              | some (cap, r) =>
                [cap] ++ scanF m (fun cap => [cap]) (fun _ => []) f r
              | none => [] ++ scanF m (fun cap => [cap]) (fun _ => []) f rest := rfl
        rw [hstep, hml] at hnil
        have hstep2 : scanF m hit (fun c => [c]) (f + 1) (c :: rest)
            = match m (c :: rest) with
              | some (cap, r) => hit cap ++ scanF m hit (fun c => [c]) f r
              | none => [c] ++ scanF m hit (fun c => [c]) f rest := rfl
        rw [hstep2, hml]
        have hlen : rest.length ≤ f := by simp at h; omega
        have := ih rest hlen (by simpa using hnil)
        simp [this]

/-- Shared helper: if the embed-bracket pattern has no match in `s`, the
conversion pass leaves `s` unchanged. -/
theorem convert_eq_self_of_findObsidian_nil {post_id s : List Char}
    (h : findObsidian s = []) :
    convert_obsidian_images post_id s = s :=
  scanF_id_of_find_nil _ s.length s le_rfl h

/-- Conversion distributes over an exact leading occurrence `![[NAME]]`. -/
theorem convert_cons_exact (post_id : List Char) {name : List Char}
    (hne : name ≠ []) (hok : ∀ c ∈ name, c ≠ ']') (rest : List Char) :
    convert_obsidian_images post_id ("![[".data ++ (name ++ (']' :: ']' :: rest)))
      = "![](assets/".data ++ post_id ++ '/' :: name ++ [')']
          ++ convert_obsidian_images post_id rest := by
  have hm := matchObsidianAt_exact hne hok rest
  have := scanF_top_match (fun {l cap r} h => matchObsidianAt_length h)
    (fun cap => "![](assets/".data ++ post_id ++ '/' :: cap ++ [')'])
    (fun c => [c]) hm
  unfold convert_obsidian_images
  rw [this]

/-! ### Claims C1-C3 -/

/-- C1: `extract_images` returns all embed-bracket matches `![[NAME]]` first,
in order of appearance, followed by all standard-link matches `![ALT](...)`
(with a leading `assets/` stripped), in order of appearance; the two groups
are never interleaved in source order and duplicates are kept.  In
particular `extract_images("![[a.png]] and ![b](assets/c.png)") =
["a.png", "c.png"]`. -/
theorem C1_extract_images_two_pass :
    (∀ content : List Char,
      extract_images_from_markdown content = findObsidian content ++ findStandard content)
    ∧ extract_images_from_markdown "![[a.png]] and ![b](assets/c.png)".data
        = ["a.png".data, "c.png".data]
    ∧ extract_images_from_markdown "![b](assets/c.png) and ![[a.png]]".data
        = ["a.png".data, "c.png".data]
    ∧ extract_images_from_markdown "![[z.png]] ![a](b.png) ![[y.png]] ![c](assets/d.png)".data
        = ["z.png".data, "y.png".data, "b.png".data, "d.png".data]
    ∧ extract_images_from_markdown "![[a.png]] ![[a.png]]".data
        = ["a.png".data, "a.png".data] :=
  ⟨fun _ => rfl, by decide, by decide, by decide, by decide⟩

/-- C2: `normalize` replaces every occurrence of `![[NAME]]` by
`![](assets/{document_id}/NAME)` with NAME kept verbatim (subpaths
included), leaves text without embed-bracket matches (in particular text
already in standard link syntax) unchanged, and
`normalize("![[pic.jpg]]", "230615-post") = "![](assets/230615-post/pic.jpg)"`. -/
theorem C2_convert_obsidian_images :
    (∀ (post_id name rest : List Char), name ≠ [] → (∀ c ∈ name, c ≠ ']') →
      convert_obsidian_images post_id ("![[".data ++ (name ++ (']' :: ']' :: rest)))
        = "![](assets/".data ++ post_id ++ '/' :: name ++ [')']
            ++ convert_obsidian_images post_id rest)
    ∧ (∀ (post_id s : List Char), findObsidian s = [] →
        convert_obsidian_images post_id s = s)
    ∧ convert_obsidian_images "230615-post".data "![[pic.jpg]]".data
        = "![](assets/230615-post/pic.jpg)".data
    ∧ convert_obsidian_images "id".data "![[sub/dir/p.png]]".data
        = "![](assets/id/sub/dir/p.png)".data :=
  ⟨fun post_id _ rest hne hok => convert_cons_exact post_id hne hok rest,
   fun _ _ h => convert_eq_self_of_findObsidian_nil h, by decide, by decide⟩

/-- Witness for C2 at concrete inputs. -/
theorem C2_convert_obsidian_images_witness :
    convert_obsidian_images "id".data ("![[".data ++ ("p.png".data ++ (']' :: ']' :: " x".data)))
      = "![](assets/".data ++ "id".data ++ '/' :: "p.png".data ++ [')']
          ++ convert_obsidian_images "id".data " x".data
    ∧ convert_obsidian_images "id".data "no images".data = "no images".data := by
  constructor
  · exact C2_convert_obsidian_images.1 "id".data "p.png".data " x".data (by decide) (by decide)
  · exact C2_convert_obsidian_images.2.1 "id".data "no images".data (by decide)

/-- C3 counterexample: normalization is NOT idempotent on every input.
On `"![[![[a]]b]]"` the first pass produces `"![](assets/id/![[a)b]]"`,
which still contains an embed-bracket match, so a second pass rewrites it
again. -/
theorem C3_counterexample_not_idempotent :
    convert_obsidian_images "id".data
        (convert_obsidian_images "id".data "![[![[a]]b]]".data)
      ≠ convert_obsidian_images "id".data "![[![[a]]b]]".data := by decide

/-- C3 (amended): on text with no embed-bracket match — in particular text
already entirely in standard link syntax — `normalize` is the identity, and
hence applying it twice yields the same result as applying it once. -/
theorem C3_normalize_idempotent_amended :
    ∀ (post_id s : List Char), findObsidian s = [] →
      convert_obsidian_images post_id s = s
      ∧ convert_obsidian_images post_id (convert_obsidian_images post_id s)
          = convert_obsidian_images post_id s := by
  intro post_id s h
  have h1 := @convert_eq_self_of_findObsidian_nil post_id s h
  exact ⟨h1, by rw [h1, h1]⟩

/-- Witness for the amended C3 at a concrete standard-syntax input. -/
theorem C3_normalize_idempotent_amended_witness :
    convert_obsidian_images "d".data "plain ![x](assets/y.png) text".data
        = "plain ![x](assets/y.png) text".data
    ∧ convert_obsidian_images "d".data
        (convert_obsidian_images "d".data "plain ![x](assets/y.png) text".data)
        = convert_obsidian_images "d".data "plain ![x](assets/y.png) text".data :=
  C3_normalize_idempotent_amended "d".data "plain ![x](assets/y.png) text".data (by decide)

/-! ### Claims C4-C5 -/

/-- C4: `parse_date` returns a date exactly when the filename stem begins
with 6 digits; the result is `20` ++ YY ++ `-` ++ MM ++ `-` ++ DD with no
month/day validation, and it is absent whenever the stem does not start with
6 digits.  In particular `parse_date("230615-my-post") = "2023-06-15"` and
`parse_date("notadate")` is absent. -/
theorem C4_parse_date :
    (∀ l : List Char, (parse_date_from_filename l).isSome
        ↔ (6 ≤ l.length ∧ ∀ c ∈ l.take 6, c.isDigit = true))
    ∧ (∀ l d : List Char, parse_date_from_filename l = some d →
        d = '2' :: '0' :: (l.take 2
              ++ '-' :: ((l.drop 2).take 2 ++ '-' :: (l.drop 4).take 2)))
    ∧ parse_date_from_filename "230615-my-post".data = some "2023-06-15".data
    ∧ parse_date_from_filename "notadate".data = none := by
  refine ⟨?_, ?_, by decide, by decide⟩
  · intro l
    rcases l with _ | ⟨c1, _ | ⟨c2, _ | ⟨c3, _ | ⟨c4, _ | ⟨c5, _ | ⟨c6, t⟩⟩⟩⟩⟩⟩ <;>
      simp [parse_date_from_filename]
    tauto
  · intro l d h
    rcases l with _ | ⟨c1, _ | ⟨c2, _ | ⟨c3, _ | ⟨c4, _ | ⟨c5, _ | ⟨c6, t⟩⟩⟩⟩⟩⟩ <;>
      simp [parse_date_from_filename] at h
    obtain ⟨hdig, rfl⟩ := h
    rfl

/-- Witness for C4 at a concrete successful parse. -/
theorem C4_parse_date_witness :
    "2023-06-15".data
      = '2' :: '0' :: (("230615-my-post".data).take 2
            ++ '-' :: ((("230615-my-post".data).drop 2).take 2
            ++ '-' :: (("230615-my-post".data).drop 4).take 2)) :=
  C4_parse_date.2.1 "230615-my-post".data "2023-06-15".data (by decide)

/-- The first line of the stripped content (the first non-blank line of the
content, since leading whitespace including newlines is stripped first). -/
def firstLineOf (content : List Char) : List Char :=
  ((pyStrip content).splitOn '\n').headD []

theorem splitOn_newline_ne_nil (l : List Char) : l.splitOn '\n' ≠ [] := by
  simpa [List.splitOn] using @List.splitOnP_ne_nil Char (· == '\n') l

/-- The title-search loop is `find?` over the stripped lines followed by
truncation to 50 characters. -/
theorem findTitleLoop_eq_find : ∀ lines : List (List Char),
    findTitleLoop lines
      = ((lines.map pyStrip).find? goodTitleLine).map (fun l => l.take 50) := by
  intro lines
  induction lines with
  | nil => rfl
  | cons l rest ih =>
    show (if goodTitleLine (pyStrip l) then some ((pyStrip l).take 50)
          else findTitleLoop rest) = _
    rw [List.map_cons, List.find?_cons]
    by_cases h : goodTitleLine (pyStrip l)
    · simp [h]
    · simp [h, ih]

/-- Unfolding of `extract_title_from_markdown` at a known split of the
stripped content into lines. -/
theorem extract_title_eq_of_splitOn {content : List Char} {l0 : List Char}
    {rest : List (List Char)}
    (hsp : (pyStrip content).splitOn '\n' = l0 :: rest) :
    extract_title_from_markdown content
      = (if pyStartswith ['#'] (pyStrip l0) then
          some (pyStrip ((pyStrip l0).dropWhile (· = '#')))
         else findTitleLoop (l0 :: rest)) := by
  unfold extract_title_from_markdown
  rw [hsp]

/-- C5: if the first non-blank line starts with `#`, the title is that line
with the leading `#` run and surrounding whitespace stripped; otherwise the
title is the first non-blank line not starting with either image-embed
syntax, truncated to 50 characters; absent when no such line exists. -/
theorem C5_extract_title :
    (∀ content : List Char,
      pyStartswith ['#'] (pyStrip (firstLineOf content)) = true →
      extract_title_from_markdown content
        = some (pyStrip ((pyStrip (firstLineOf content)).dropWhile (· = '#'))))
    ∧ (∀ content : List Char,
      pyStartswith ['#'] (pyStrip (firstLineOf content)) = false →
      extract_title_from_markdown content
        = ((((pyStrip content).splitOn '\n').map pyStrip).find? goodTitleLine).map
            (fun l => l.take 50))
    ∧ (∀ content : List Char,
      pyStartswith ['#'] (pyStrip (firstLineOf content)) = false →
      (∀ l ∈ (pyStrip content).splitOn '\n', goodTitleLine (pyStrip l) = false) →
      extract_title_from_markdown content = none)
    ∧ extract_title_from_markdown "# Hello World".data = some "Hello World".data
    ∧ extract_title_from_markdown "![[x.png]]\n![y](z.png)\nreal title".data
        = some "real title".data
    ∧ extract_title_from_markdown
        "aaaaaaaaaabbbbbbbbbbccccccccccddddddddddeeeeeeeeeefffff".data
        = some "aaaaaaaaaabbbbbbbbbbccccccccccddddddddddeeeeeeeeee".data
    ∧ extract_title_from_markdown "   \n\n  ".data = none := by
  have hbranch : ∀ content : List Char, ∃ l0 rest,
      (pyStrip content).splitOn '\n' = l0 :: rest ∧ firstLineOf content = l0 := by
    intro content
    rcases hsp : (pyStrip content).splitOn '\n' with _ | ⟨l0, rest⟩
    · exact absurd hsp (splitOn_newline_ne_nil _)
    · exact ⟨l0, rest, rfl, by simp [firstLineOf, hsp]⟩
  refine ⟨?_, ?_, ?_, by decide, by decide, by decide, by decide⟩
  · intro content h
    obtain ⟨l0, rest, hsp, hfl⟩ := hbranch content
    rw [hfl] at h
    rw [extract_title_eq_of_splitOn hsp, if_pos h, hfl]
  · intro content h
    obtain ⟨l0, rest, hsp, hfl⟩ := hbranch content
    rw [hfl] at h
    rw [extract_title_eq_of_splitOn hsp, if_neg (by simp [h]),
      findTitleLoop_eq_find, hsp]
  · intro content h hall
    obtain ⟨l0, rest, hsp, hfl⟩ := hbranch content
    rw [hfl] at h
    rw [extract_title_eq_of_splitOn hsp, if_neg (by simp [h]),
      findTitleLoop_eq_find]
    rw [List.find?_eq_none.mpr (by
      intro x hx
      simp only [List.mem_map] at hx
      obtain ⟨y, hy, rfl⟩ := hx
      simp [hall y (by rw [hsp]; exact hy)])]
    rfl

/-- Witness for C5: both branches and the absent case at concrete inputs. -/
theorem C5_extract_title_witness :
    extract_title_from_markdown "# T".data
      = some (pyStrip ((pyStrip (firstLineOf "# T".data)).dropWhile (· = '#')))
    ∧ extract_title_from_markdown "hello\nworld".data
      = ((((pyStrip "hello\nworld".data).splitOn '\n').map pyStrip).find? goodTitleLine).map
          (fun l => l.take 50)
    ∧ extract_title_from_markdown "![[a]]".data = none := by
  refine ⟨C5_extract_title.1 "# T".data (by decide),
    C5_extract_title.2.1 "hello\nworld".data (by decide),
    C5_extract_title.2.2.1 "![[a]]".data (by decide) (by decide)⟩

/-! ### Ordering lemmas for the document processor -/

theorem lexLe_total : ∀ a b : List Char, lexLe a b = true ∨ lexLe b a = true := by
  intro a
  induction a with
  | nil => intro b; left; rfl
  | cons x xs ih =>
    intro b
    cases b with
    | nil => right; rfl
    | cons y ys =>
      by_cases hxy : x = y
      · subst hxy
        rcases ih ys with h | h
        · left; simp [lexLe, h]
        · right; simp [lexLe, h]
      · have hyx : ¬ y = x := fun e => hxy e.symm
        rcases lt_trichotomy x y with h | h | h
        · left; simp [lexLe, hxy, h]
        · exact absurd h hxy
        · right; simp [lexLe, hyx, h]

theorem lexLe_trans : ∀ a b c : List Char,
    lexLe a b = true → lexLe b c = true → lexLe a c = true := by
  intro a
  induction a with
  | nil => intro b c _ _; rfl
  | cons x xs ih =>
    intro b c hab hbc
    cases b with
    | nil => simp [lexLe] at hab
    | cons y ys =>
      cases c with
      | nil => simp [lexLe] at hbc
      | cons z zs =>
        by_cases hxy : x = y <;> by_cases hyz : y = z
        · subst hxy
          subst hyz
          simp only [lexLe, if_pos rfl] at hab hbc ⊢
          exact ih ys zs hab hbc
        · subst hxy
          simp only [lexLe, if_pos rfl, if_neg hyz] at hbc ⊢
          exact hbc
        · subst hyz
          simp only [lexLe, if_neg hxy] at hab ⊢
          exact hab
        · simp only [lexLe, if_neg hxy, if_neg hyz, decide_eq_true_eq] at hab hbc
          have hxz : x < z := lt_trans hab hbc
          simp only [lexLe, if_neg (ne_of_lt hxz), decide_eq_true_eq]
          exact hxz

theorem insertDesc_perm (x : MdFile) :
    ∀ l : List MdFile, List.Perm (insertDesc x l) (x :: l) := by
  intro l
  induction l with
  | nil => exact List.Perm.refl _
  | cons y ys ih =>
    show List.Perm (if lexLe y.1 x.1 then x :: y :: ys else y :: insertDesc x ys)
      (x :: y :: ys)
    by_cases h : lexLe y.1 x.1
    · rw [if_pos h]
    · rw [if_neg h]
      exact (ih.cons y).trans (List.Perm.swap x y ys)

theorem sortDescByName_perm : ∀ files : List MdFile,
    List.Perm (sortDescByName files) files := by
  intro files
  induction files with
  | nil => exact List.Perm.refl _
  | cons f fs ih =>
    show List.Perm (insertDesc f (sortDescByName fs)) (f :: fs)
    exact (insertDesc_perm f (sortDescByName fs)).trans (ih.cons f)

theorem insertDesc_sorted {x : MdFile} {l : List MdFile}
    (hs : l.Pairwise (fun a b => lexLe b.1 a.1 = true)) :
    (insertDesc x l).Pairwise (fun a b => lexLe b.1 a.1 = true) := by
  induction l with
  | nil => simp [insertDesc]
  | cons y ys ih =>
    rw [List.pairwise_cons] at hs
    obtain ⟨hy, hys⟩ := hs
    show (if lexLe y.1 x.1 then x :: y :: ys else y :: insertDesc x ys).Pairwise _
    by_cases h : lexLe y.1 x.1
    · rw [if_pos h]
      refine List.Pairwise.cons ?_ (List.Pairwise.cons hy hys)
      intro z hz
      rcases List.mem_cons.mp hz with rfl | hz2
      · exact h
      · exact lexLe_trans z.1 y.1 x.1 (hy z hz2) h
    · rw [if_neg h]
      refine List.Pairwise.cons ?_ (ih hys)
      intro z hz
      have hz2 := (insertDesc_perm x ys).mem_iff.mp hz
      rcases List.mem_cons.mp hz2 with rfl | hz3
      · rcases lexLe_total y.1 z.1 with ht | ht
        · exact absurd ht h
        · exact ht
      · exact hy z hz3

theorem sortDescByName_sorted : ∀ files : List MdFile,
    (sortDescByName files).Pairwise (fun a b => lexLe b.1 a.1 = true) := by
  intro files
  induction files with
  | nil => exact List.Pairwise.nil
  | cons f fs ih => exact insertDesc_sorted ih

theorem mkRecord_some_id {name content : List Char} {r : Post}
    (h : mkRecord name content = some r) : r.id = pathStem name := by
  unfold mkRecord at h
  split at h
  · injection h with h1
    rw [← h1]
  · exact absurd h (by simp)

theorem filterMap_mkRecord_ids_sublist : ∀ l : List MdFile,
    List.Sublist ((l.filterMap (fun f => mkRecord f.1 f.2)).map Post.id)
      (l.map (fun f => pathStem f.1)) := by
  intro l
  induction l with
  | nil => simp
  | cons f fs ih =>
    rw [List.filterMap_cons]
    cases hm : mkRecord f.1 f.2 with
    | none =>
      rw [List.map_cons]
      exact ih.cons _
    | some r =>
      rw [List.map_cons, List.map_cons, mkRecord_some_id hm]
      exact ih.cons₂ _

theorem pyTruthy_some {o : Option (List Char)} (h : pyTruthy o = true) :
    o = some (o.getD []) ∧ o.getD [] ≠ [] := by
  cases o with
  | none => simp [pyTruthy] at h
  | some l =>
    simp only [pyTruthy, Bool.not_eq_true'] at h
    refine ⟨rfl, ?_⟩
    simp only [Option.getD_some]
    intro he
    rw [he] at h
    simp at h

/-! ### Claims C6-C7 -/

/-- C6 counterexample: on the document `"#"` both the title and the date
resolve (`extract_title` returns `some ""`, the date parses from the
filename), yet no Metadata Record is created, because the inclusion check
`if date and title:` treats the empty-string title as falsy.  The rewritten
file is still written. -/
theorem C6_counterexample_empty_title :
    (extract_title_from_markdown "#".data).isSome = true
    ∧ (parse_date_from_filename (pathStem "230101-a.md".data)).isSome = true
    ∧ (process_markdown_files [("230101-a.md".data, "#".data)]).2 = []
    ∧ (process_markdown_files [("230101-a.md".data, "#".data)]).1
        = [("230101-a.md".data, "#".data)] := by decide

/-- C6 (amended): a Metadata Record is created iff the date resolved and the
title resolved to a non-empty string (Python truthiness — an empty-string
title is excluded like a missing one); the rewritten (normalized) file is
written for every input document regardless. -/
theorem C6_record_iff_truthy_amended :
    (∀ files : List MdFile,
      (process_markdown_files files).1
        = (sortDescByName files).map
            (fun f => (f.1, convert_obsidian_images (pathStem f.1) f.2)))
    ∧ (∀ files : List MdFile,
      (process_markdown_files files).2
        = (sortDescByName files).filterMap (fun f => mkRecord f.1 f.2))
    ∧ (∀ name content : List Char,
      (mkRecord name content).isSome = true
        ↔ (pyTruthy (parse_date_from_filename (pathStem name)) = true
            ∧ pyTruthy (extract_title_from_markdown content) = true))
    ∧ (∀ (name content : List Char) (r : Post), mkRecord name content = some r →
        r.id = pathStem name
        ∧ parse_date_from_filename (pathStem name) = some r.date
        ∧ extract_title_from_markdown content = some r.title
        ∧ r.title ≠ []
        ∧ r.images = extract_images_from_markdown content) := by
  refine ⟨fun _ => rfl, fun _ => rfl, ?_, ?_⟩
  · intro n c
    unfold mkRecord
    by_cases h : (pyTruthy (parse_date_from_filename (pathStem n))
        && pyTruthy (extract_title_from_markdown c)) = true
    · rw [if_pos h]
      simp only [Bool.and_eq_true] at h
      simp [h]
    · rw [if_neg h]
      simp only [Bool.and_eq_true] at h
      simp only [Option.isSome_none, Bool.false_eq_true, false_iff]
      intro hc
      exact h ⟨hc.1, hc.2⟩
  · intro n c r h
    unfold mkRecord at h
    split at h
    · rename_i hg
      simp only [Bool.and_eq_true] at hg
      injection h with h1
      obtain ⟨hd1, hd2⟩ := pyTruthy_some hg.1
      obtain ⟨ht1, ht2⟩ := pyTruthy_some hg.2
      subst h1
      exact ⟨rfl, hd1, ht1, ht2, rfl⟩
    · exact absurd h (by simp)

/-- Witness for the amended C6 at a concrete document. -/
theorem C6_record_iff_truthy_amended_witness :
    (⟨"230101-a".data, "2023-01-01".data, "T".data, []⟩ : Post).id
        = pathStem "230101-a.md".data
    ∧ parse_date_from_filename (pathStem "230101-a.md".data)
        = some (⟨"230101-a".data, "2023-01-01".data, "T".data, []⟩ : Post).date
    ∧ extract_title_from_markdown "# T".data
        = some (⟨"230101-a".data, "2023-01-01".data, "T".data, []⟩ : Post).title
    ∧ (⟨"230101-a".data, "2023-01-01".data, "T".data, []⟩ : Post).title ≠ []
    ∧ (⟨"230101-a".data, "2023-01-01".data, "T".data, []⟩ : Post).images
        = extract_images_from_markdown "# T".data :=
  C6_record_iff_truthy_amended.2.2.2 "230101-a.md".data "# T".data
    ⟨"230101-a".data, "2023-01-01".data, "T".data, []⟩ (by decide)

/-- C7: the metadata records are produced by iterating the input files in
descending (reverse lexicographic) filename order; the sorted listing is a
permutation of the input listing and is pairwise descending; and the record
ids form a sublist of the stems of the descending listing — so dropping
invalid documents never reorders the remaining records. -/
theorem C7_metadata_order :
    (∀ files : List MdFile,
      (process_markdown_files files).2
        = (sortDescByName files).filterMap (fun f => mkRecord f.1 f.2))
    ∧ (∀ files : List MdFile, List.Perm (sortDescByName files) files)
    ∧ (∀ files : List MdFile,
      (sortDescByName files).Pairwise (fun a b => lexLe b.1 a.1 = true))
    ∧ (∀ files : List MdFile,
      List.Sublist (((process_markdown_files files).2).map Post.id)
        ((sortDescByName files).map (fun f => pathStem f.1))) :=
  ⟨fun _ => rfl, sortDescByName_perm, sortDescByName_sorted,
   fun files => filterMap_mkRecord_ids_sublist (sortDescByName files)⟩

/-! ### Claims C8-C10 -/

/-- C8: when the source asset tree exists, the destination asset root is
deleted and recreated before repopulating, so the result never depends on
the pre-existing destination tree: two runs on an unchanged input produce
identical trees, and any stale pre-existing file not regenerated is gone. -/
theorem C8_assets_reset :
    (∀ (tree : List AssetFile) (posts : List Post) (d d' : List DestFile),
      organize_assets (some tree) posts d = organize_assets (some tree) posts d')
    ∧ (∀ (tree : List AssetFile) (posts : List Post) (d : List DestFile),
      organize_assets (some tree) posts (organize_assets (some tree) posts d)
        = organize_assets (some tree) posts d)
    ∧ (∀ (tree : List AssetFile) (posts : List Post) (d : List DestFile)
        (x : DestFile), x ∈ d → x ∉ buildAssetTree tree posts →
        x ∉ organize_assets (some tree) posts d) :=
  ⟨fun _ _ _ _ => rfl, fun _ _ _ => rfl, fun _ _ _ _ _ h => h⟩

/-- Witness for C8: a stale destination entry does not survive the reset. -/
theorem C8_assets_reset_witness :
    ("old".data, "stale.png".data, "junk".data) ∉
      organize_assets (some [("i.png".data, "IMG".data)]) []
        [("old".data, "stale.png".data, "junk".data)] :=
  C8_assets_reset.2.2 [("i.png".data, "IMG".data)] []
    [("old".data, "stale.png".data, "junk".data)]
    ("old".data, "stale.png".data, "junk".data) (by decide) (by decide)

theorem matchMarkerAt_append {l m r : List Char}
    (h : matchMarkerAt l = some (m, r)) : l = m ++ r := by
  unfold matchMarkerAt at h
  by_cases h1 : pyStartswith "postsMetadata:".data l = true
  · rw [if_pos h1] at h
    by_cases h2 : ((l.drop 14).dropWhile pyIsSpace).take 1 = "[".data
    · rw [if_pos h2] at h
      by_cases h3 : (((((l.drop 14).dropWhile pyIsSpace).drop 1)).dropWhile
          (fun c => !(c = ']'))).take 1 = "]".data
      · rw [if_pos h3] at h
        injection h with h4
        have hm : m = "postsMetadata:".data ++ (l.drop 14).takeWhile pyIsSpace
            ++ '[' :: ((((l.drop 14).dropWhile pyIsSpace).drop 1)).takeWhile
                (fun c => !(c = ']')) ++ [']'] :=
          (congrArg Prod.fst h4).symm
        have hr : r = (((((l.drop 14).dropWhile pyIsSpace).drop 1)).dropWhile
            (fun c => !(c = ']'))).drop 1 :=
          (congrArg Prod.snd h4).symm
        have hpre : "postsMetadata:".data ++ l.drop 14 = l := by
          have := List.prefix_iff_eq_append.mp (List.isPrefixOf_iff_prefix.mp h1)
          simpa using this
        have hws : (l.drop 14).takeWhile pyIsSpace ++ (l.drop 14).dropWhile pyIsSpace
            = l.drop 14 := List.takeWhile_append_dropWhile _ _
        have hbr : '[' :: ((l.drop 14).dropWhile pyIsSpace).drop 1
            = (l.drop 14).dropWhile pyIsSpace := by
          cases hd : (l.drop 14).dropWhile pyIsSpace with
          | nil => rw [hd] at h2; simp at h2
          | cons a t =>
            rw [hd] at h2
            simp only [List.take_cons, List.take_zero] at h2
            have : a = '[' := by
              have := congrArg (fun x => x.headD ' ') h2
              simpa using this
            simp [this]
        have hbody : (((l.drop 14).dropWhile pyIsSpace).drop 1).takeWhile
              (fun c => !(c = ']'))
            ++ (((l.drop 14).dropWhile pyIsSpace).drop 1).dropWhile
              (fun c => !(c = ']'))
            = ((l.drop 14).dropWhile pyIsSpace).drop 1 :=
          List.takeWhile_append_dropWhile _ _
        have hcl : ']' :: (((((l.drop 14).dropWhile pyIsSpace).drop 1)).dropWhile
              (fun c => !(c = ']'))).drop 1
            = ((((l.drop 14).dropWhile pyIsSpace).drop 1)).dropWhile
              (fun c => !(c = ']')) := by
          cases hd : ((((l.drop 14).dropWhile pyIsSpace).drop 1)).dropWhile
              (fun c => !(c = ']')) with
          | nil => rw [hd] at h3; simp at h3
          | cons a t =>
            rw [hd] at h3
            simp only [List.take_cons, List.take_zero] at h3
            have : a = ']' := by
              have := congrArg (fun x => x.headD ' ') h3
              simpa using this
            simp [this]
        subst hm
        subst hr
        calc l = "postsMetadata:".data ++ l.drop 14 := hpre.symm
          _ = "postsMetadata:".data ++ ((l.drop 14).takeWhile pyIsSpace
                ++ (l.drop 14).dropWhile pyIsSpace) := by rw [hws]
          _ = "postsMetadata:".data ++ ((l.drop 14).takeWhile pyIsSpace
                ++ ('[' :: ((l.drop 14).dropWhile pyIsSpace).drop 1)) := by rw [hbr]
          _ = "postsMetadata:".data ++ ((l.drop 14).takeWhile pyIsSpace
                ++ ('[' :: ((((l.drop 14).dropWhile pyIsSpace).drop 1).takeWhile
                      (fun c => !(c = ']'))
                    ++ (((l.drop 14).dropWhile pyIsSpace).drop 1).dropWhile
                      (fun c => !(c = ']'))))) := by rw [hbody]
          _ = "postsMetadata:".data ++ ((l.drop 14).takeWhile pyIsSpace
                ++ ('[' :: ((((l.drop 14).dropWhile pyIsSpace).drop 1).takeWhile
                      (fun c => !(c = ']'))
                    ++ (']' :: (((((l.drop 14).dropWhile pyIsSpace).drop 1)).dropWhile
                          (fun c => !(c = ']'))).drop 1)))) := by rw [hcl]
          _ = ("postsMetadata:".data ++ (l.drop 14).takeWhile pyIsSpace
                ++ '[' :: ((((l.drop 14).dropWhile pyIsSpace).drop 1)).takeWhile
                    (fun c => !(c = ']')) ++ [']'])
              ++ (((((l.drop 14).dropWhile pyIsSpace).drop 1)).dropWhile
                    (fun c => !(c = ']'))).drop 1 := by simp
      · rw [if_neg h3] at h
        exact absurd h (by simp)
    · rw [if_neg h2] at h
      exact absurd h (by simp)
  · rw [if_neg h1] at h
    exact absurd h (by simp)

/-- Unfolding equation for `update_blog_js` on a non-empty text. -/
theorem update_blog_js_cons (repl : List Char) (c : Char) (rest : List Char) :
    update_blog_js repl (c :: rest)
      = match matchMarkerAt (c :: rest) with
        | some (_, r) => repl ++ r
        | none => c :: update_blog_js repl rest := rfl

/-- Unfolding equation for `findMarkerSplit` on a non-empty text. -/
theorem findMarkerSplit_cons (c : Char) (rest : List Char) :
    findMarkerSplit (c :: rest)
      = match matchMarkerAt (c :: rest) with
        | some (m, r) => some (([] : List Char), m, r)
        | none => (findMarkerSplit rest).map (fun t => (c :: t.1, t.2.1, t.2.2)) := rfl

/-- C9: the Metadata Publisher replaces exactly the leftmost occurrence of
the marker pattern `postsMetadata:\s*\[...\]` (non-greedy), leaving all text
before and after the matched region byte-for-byte unchanged; a second
occurrence of the pattern is not replaced. -/
theorem C9_update_blog_js_frame :
    (∀ (content repl pre m post : List Char),
      findMarkerSplit content = some (pre, m, post) →
      content = pre ++ m ++ post
      ∧ update_blog_js repl content = pre ++ repl ++ post)
    ∧ update_blog_js "M".data "A postsMetadata: [x] B postsMetadata: [y] C".data
        = "A M B postsMetadata: [y] C".data := by
  refine ⟨?_, by decide⟩
  intro content
  induction content with
  | nil =>
    intro repl pre m post h
    simp [findMarkerSplit] at h
  | cons c rest ih =>
    intro repl pre m post h
    rw [findMarkerSplit_cons] at h
    cases hm : matchMarkerAt (c :: rest) with
    | some pr =>
      obtain ⟨m0, r0⟩ := pr
      rw [hm] at h
      simp only [Option.some.injEq, Prod.mk.injEq] at h
      obtain ⟨rfl, rfl, rfl⟩ := h
      refine ⟨by simpa using matchMarkerAt_append hm, ?_⟩
      rw [update_blog_js_cons, hm]
      simp
    | none =>
      rw [hm] at h
      cases hfs : findMarkerSplit rest with
      | none =>
        rw [hfs] at h
        simp at h
      | some t =>
        obtain ⟨p1, m1, r1⟩ := t
        rw [hfs] at h
        simp only [Option.map_some', Option.map_some, Option.some.injEq,
          Prod.mk.injEq] at h
        obtain ⟨rfl, rfl, rfl⟩ := h
        obtain ⟨ih1, ih2⟩ := ih repl p1 m1 r1 hfs
        refine ⟨by simp [ih1], ?_⟩
        rw [update_blog_js_cons, hm]
        simp [ih2]

/-- Witness for C9 at a concrete target text. -/
theorem C9_update_blog_js_frame_witness :
    "A postsMetadata: [x] B".data
        = "A ".data ++ "postsMetadata: [x]".data ++ " B".data
    ∧ update_blog_js "M".data "A postsMetadata: [x] B".data
        = "A ".data ++ "M".data ++ " B".data :=
  C9_update_blog_js_frame.1 "A postsMetadata: [x] B".data "M".data "A ".data
    "postsMetadata: [x]".data " B".data (by decide)

theorem dropWhile_hash_all {l : List Char} (h : ∀ c ∈ l, c = '#') :
    l.dropWhile (· = '#') = [] := by
  induction l with
  | nil => rfl
  | cons c rest ih =>
    have hc : c = '#' := h c (by simp)
    rw [List.dropWhile_cons, if_pos (by simp [hc])]
    exact ih (fun x hx => h x (by simp [hx]))

/-- C10: if the first non-blank line consists only of `#` characters,
`extract_title` returns the empty string (not absent); the Document
Processor's inclusion check treats this empty title like a missing one, so
the document is excluded from the published metadata while its rewritten
file is still written. -/
theorem C10_empty_title_excluded :
    (∀ content : List Char,
      pyStrip (firstLineOf content) ≠ [] →
      (∀ c ∈ pyStrip (firstLineOf content), c = '#') →
      extract_title_from_markdown content = some [])
    ∧ extract_title_from_markdown "#".data = some []
    ∧ pyTruthy (extract_title_from_markdown "#".data) = false
    ∧ (process_markdown_files [("230101-b.md".data, "#".data)]).2 = []
    ∧ (process_markdown_files [("230101-b.md".data, "#".data)]).1
        = [("230101-b.md".data, "#".data)] := by
  refine ⟨?_, by decide, by decide, by decide, by decide⟩
  intro content hne hall
  rcases hsp : (pyStrip content).splitOn '\n' with _ | ⟨l0, rest⟩
  · exact absurd hsp (splitOn_newline_ne_nil _)
  · have hfl : firstLineOf content = l0 := by simp [firstLineOf, hsp]
    rw [hfl] at hne hall
    have hstart : pyStartswith ['#'] (pyStrip l0) = true := by
      cases hd : pyStrip l0 with
      | nil => exact absurd hd hne
      | cons a t =>
        have ha : a = '#' := hall a (by rw [hd]; simp)
        subst ha
        simp [pyStartswith, List.isPrefixOf]
    rw [extract_title_eq_of_splitOn hsp, if_pos hstart]
    rw [dropWhile_hash_all hall]
    rfl

/-- Witness for C10 at a concrete all-`#` first line. -/
theorem C10_empty_title_excluded_witness :
    extract_title_from_markdown "##  \nx".data = some [] :=
  C10_empty_title_excluded.1 "##  \nx".data (by decide) (by decide)

end Build
